import Mathlib

/-!
Shallow embedding of the ARP resolver in `src/src/netif/etharp.c` (lwIP for
ESP8266).  The cache is the static array `arp_table`; we model it as a
`List Entry` whose length plays the role of the compile-time constant
`ARP_TABLE_SIZE`.  Machine `u8_t` counters are `Nat` with explicit `% 256`
where the C increments them.  Emissions through `netif->linkoutput` and
releases through `pbuf_free` are recorded as an ordered event trace.

External collaborators (the pbuf facade, `ip_addr.h` predicates, the link
driver) are not part of `src/`; where their behaviour decides a claim they
are modelled from the spec and marked as such in their doc comments.
-/

namespace Etharp

/-- A 32-bit IPv4 address, kept as its four octets exactly as the C code
accesses them through `ip4_addr1` .. `ip4_addr4`.  `struct ip_addr`'s
`addr == 0` test corresponds to all four octets being zero. -/
structure Ip where
  a1 : Nat
  a2 : Nat
  a3 : Nat
  a4 : Nat
deriving DecidableEq, Repr

/-- The all-zero address `0.0.0.0` (`IP_ADDR_ANY`). -/
def zeroIp : Ip := ⟨0, 0, 0, 0⟩

/-- `ip_addr_isany`: the address is `0.0.0.0` (a null pointer cannot arise
in our embedding, so only the zero test remains). -/
def ip_addr_isany (a : Ip) : Bool := a = zeroIp

/-- `ip_addr_cmp`: equality of the 32-bit values. -/
def ip_addr_cmp (a b : Ip) : Bool := a = b

/-- `ip_addr_maskcmp`: equality of the masked addresses, octet by octet. -/
def ip_addr_maskcmp (a b mask : Ip) : Bool :=
  a.a1 &&& mask.a1 = b.a1 &&& mask.a1 ∧
  a.a2 &&& mask.a2 = b.a2 &&& mask.a2 ∧
  a.a3 &&& mask.a3 = b.a3 &&& mask.a3 ∧
  a.a4 &&& mask.a4 = b.a4 &&& mask.a4

/-- `ip_addr_ismulticast`: the top four bits of the first octet are `0xe`
(the class-D range 224.0.0.0/4). -/
def ip_addr_ismulticast (a : Ip) : Bool := a.a1 &&& 0xf0 = 0xe0

/-- Ethernet header of an IP packet buffer: destination and source
hardware addresses (six octets each in the C `struct eth_hdr`) and the
ethertype field. -/
structure EthHdr where
  dest : List Nat
  src : List Nat
  ty : Nat
deriving DecidableEq, Repr

/-- A packet buffer (`struct pbuf`) as far as the resolver touches it: an
identity, the Ethernet-header region of its payload, and whether
`pbuf_header` can grow its head (the facade may fail). -/
structure Buf where
  id : Nat
  hdr : EthHdr
  grow_ok : Bool
deriving DecidableEq, Repr

/-- The ARP-over-Ethernet frame (`struct etharp_hdr`), Ethernet header
included: `sizeof(struct etharp_hdr)` is 14 + 28 = 42 octets. -/
structure ArpFrame where
  ethdest : List Nat
  ethsrc : List Nat
  ethtype : Nat
  hwtype : Nat
  proto : Nat
  hwlen : Nat
  protolen : Nat
  opcode : Nat
  shw : List Nat
  sip : Ip
  dhw : List Nat
  dip : Ip
deriving DecidableEq, Repr

/-- A frame handed to `netif->linkoutput` or to `pbuf_free`: either an ARP
frame pbuf or an IP packet pbuf. -/
inductive Packet where
  | arp (f : ArpFrame)
  | ip (b : Buf)
deriving DecidableEq, Repr

/-- One externally visible buffer event, in program order: a transmission
through `netif->linkoutput` or a release through `pbuf_free`. -/
inductive Ev where
  | out (p : Packet)
  | free (p : Packet)
deriving DecidableEq, Repr

/-- `enum etharp_state`. -/
inductive EState where
  | empty
  | pending
  | stable
  | expired
deriving DecidableEq, Repr

/-- `struct etharp_entry`: one slot of `arp_table`.  `p` is the queue of
packets chained on the entry (the C field is a `struct pbuf *`; `[]`
stands for `NULL`).  `ctime` is the `u8_t` age counter. -/
structure Entry where
  ipaddr : Ip
  ethaddr : List Nat
  state : EState
  p : List Buf
  ctime : Nat
deriving DecidableEq, Repr

/-- The zero-initialized slot: static storage starts zeroed and
`etharp_init` clears `state`, `p` and `ctime`. -/
def e0 : Entry := ⟨zeroIp, List.replicate 6 0, .empty, [], 0⟩

/-- The interface descriptor (`struct netif`), restricted to the fields
the resolver reads. -/
structure Netif where
  ip : Ip
  netmask : Ip
  gw : Ip
  hwaddr : List Nat
  hwaddr_len : Nat
deriving DecidableEq, Repr

/-- Writing the first `n` octets of `new` over `old`, as the C loops
`for (k = 0; k < netif->hwaddr_len; ++k) dst[k] = src[k]` do. -/
def writeBytes (new old : List Nat) (n : Nat) : List Nat :=
  new.take n ++ old.drop n

/-- `ethbroadcast`: ff:ff:ff:ff:ff:ff. -/
def ethbroadcast : List Nat := List.replicate 6 0xff

/-- `etharp_init`: a table of `n` cleared slots. -/
def etharp_init (n : Nat) : List Entry := List.replicate n e0

/-- One slot's transformation under `etharp_tmr`: the `u8_t` age is
incremented (wrapping modulo 256), a stable entry whose new age reaches
`ARP_MAXAGE` (120) or a pending entry whose new age reaches
`ARP_MAXPENDING` (1) is marked expired, and an expired entry has its
queue freed and is recycled to empty.  Returns the slot's new value and
the `pbuf_free` events of the dropped queue. -/
def tmr_entry (e : Entry) : Entry × List Ev :=
  let c := (e.ctime + 1) % 256
  if (e.state = .stable ∧ 120 ≤ c) ∨ (e.state = .pending ∧ 1 ≤ c) ∨ e.state = .expired then
    ({ e with ctime := c, state := .empty, p := [] }, e.p.map (fun b => Ev.free (.ip b)))
  else
    ({ e with ctime := c }, [])

/-- `etharp_tmr`: age every slot. -/
def etharp_tmr (table : List Entry) : List Entry × List Ev :=
  (table.map (fun e => (tmr_entry e).1),
   (table.map (fun e => (tmr_entry e).2)).flatten)

/-- The scan loop of `find_arp_entry`, with the accumulators of the C
code: `i` is the index of the current slot, `maxt` mirrors `maxtime`, and
`j` the remembered oldest stable slot (`none` mirrors the out-of-range
initial value `ARP_TABLE_SIZE`).  `.inl i` is the early `return i` on the
first empty slot, `.inr j` is the state after the loop. -/
def find_loop : List Entry → Nat → Nat → Option Nat → Nat ⊕ Option Nat
  | [], _, _, j => .inr j
  | e :: rest, i, maxt, j =>
    if e.state = .empty then .inl i
    else if e.state = .stable ∧ maxt ≤ e.ctime then
      find_loop rest (i + 1) e.ctime (some i)
    else
      find_loop rest (i + 1) maxt j

/-- The cleanup at the end of `find_arp_entry`: a recycled stable slot has
its packet queue freed and is reset to empty. -/
def cleanupStable (table : List Entry) (i : Nat) : List Entry × List Ev :=
  let e := table.getD i e0
  if e.state = .stable then
    (table.set i { e with state := .empty, p := [] },
     e.p.map (fun b => Ev.free (.ip b)))
  else
    (table, [])

/-- `find_arp_entry`: first empty slot, else the remembered stable slot
(recycled), else `ERR_MEM` (`none`). -/
def find_arp_entry (table : List Entry) : Option (Nat × List Entry × List Ev) :=
  match find_loop table 0 0 none with
  | .inl i => some (i, table, [])
  | .inr (some j) => some (j, (cleanupStable table j).1, (cleanupStable table j).2)
  | .inr none => none

/-- The match scan of `update_arp_entry` (and of `etharp_query`): the
first slot that is pending or stable and carries the address.  (A slot in
the transient expired state does not match and the scan continues, as in
the C loop.) -/
def findMatch (ip : Ip) : List Entry → Option Nat
  | [] => none
  | e :: rest =>
    if (e.state = .pending ∨ e.state = .stable) ∧ e.ipaddr = ip then some 0
    else (findMatch ip rest).map (· + 1)

/-- Filling the Ethernet header of a queued IP packet before transmission
(`dest ← ethaddr`, `src ← netif->hwaddr`, `type ← ETHTYPE_IP`), octet
loops bounded by `hwaddr_len`. -/
def fillIpHdr (netif : Netif) (mac : List Nat) (b : Buf) : Buf :=
  { b with hdr := { dest := writeBytes mac b.hdr.dest netif.hwaddr_len,
                    src := writeBytes netif.hwaddr b.hdr.src netif.hwaddr_len,
                    ty := 0x800 } }

/-- The queue flush of `update_arp_entry`: each queued packet, in FIFO
order, has its Ethernet header filled, is handed to `linkoutput` and then
released. -/
def flushQueue (netif : Netif) (mac : List Nat) : List Buf → List Ev
  | [] => []
  | b :: rest =>
    Ev.out (.ip (fillIpHdr netif mac b)) :: Ev.free (.ip (fillIpHdr netif mac b))
      :: flushQueue netif mac rest

/-- `update_arp_entry(netif, ipaddr, ethaddr, flags)`.  Returns the new
table and the event trace.  (The C function's `struct pbuf *` result is
always `NULL`; it is dropped.) -/
def update_arp_entry (netif : Netif) (ip : Ip) (mac : List Nat) (insert : Bool)
    (table : List Entry) : List Entry × List Ev :=
  if ip = zeroIp then (table, [])
  else
    match findMatch ip table with
    | some i =>
      let e := table.getD i e0
      (table.set i { e with state := .stable,
                            ethaddr := writeBytes mac e.ethaddr netif.hwaddr_len,
                            ctime := 0,
                            p := [] },
       flushQueue netif mac e.p)
    | none =>
      if insert then
        match find_arp_entry table with
        | none => (table, [])
        | some (i, t, fevs) =>
          let e := t.getD i e0
          (t.set i { e with ipaddr := ip,
                            ethaddr := writeBytes mac e.ethaddr netif.hwaddr_len,
                            ctime := 0,
                            state := .stable,
                            p := [] },
           fevs)
      else (table, [])

/-- `etharp_ip_input`'s view of the inbound IP packet: the Ethernet
source address and the IP source address of the frame. -/
structure IpPacket where
  src_mac : List Nat
  src_ip : Ip
deriving DecidableEq, Repr

/-- `etharp_ip_input`: snoop the sender of an on-link IP packet into the
cache (with insertion); the packet itself is neither altered nor
released. -/
def etharp_ip_input (netif : Netif) (pkt : IpPacket) (table : List Entry) :
    List Entry × List Ev :=
  if ¬ ip_addr_maskcmp pkt.src_ip netif.ip netif.netmask then (table, [])
  else update_arp_entry netif pkt.src_ip pkt.src_mac true table

/-- An inbound ARP pbuf: its recorded total length and its payload read as
a `struct etharp_hdr`. -/
structure ArpPacket where
  tot_len : Nat
  hdr : ArpFrame
deriving DecidableEq, Repr

/-- The in-place mutation of a received request into the reply
(`etharp_arp_input`, `ARP_REQUEST` branch, `for_us` case): opcode becomes
`ARP_REPLY`, target takes the old sender addresses, sender takes the
local addresses, and the Ethernet header is rewritten; the octet loops
are bounded by `hwaddr_len`. -/
def buildReply (netif : Netif) (ethaddr : List Nat) (h : ArpFrame) : ArpFrame :=
  let n := netif.hwaddr_len
  { h with
    opcode := 2,
    dip := h.sip,
    sip := netif.ip,
    dhw := writeBytes h.shw h.dhw n,
    shw := writeBytes ethaddr h.shw n,
    ethdest := writeBytes h.shw h.ethdest n,
    ethsrc := writeBytes ethaddr h.ethsrc n,
    hwtype := 1,
    hwlen := n,
    proto := 0x800,
    protolen := 4,
    ethtype := 0x806 }

/-- `etharp_arp_input(netif, ethaddr, p)`: drop short frames, learn the
sender (inserting only when the frame is for us), answer a request for
us by mutating the frame in place, and release the pbuf.  (The optional
DHCP reply hook is compiled out: `LWIP_DHCP && DHCP_DOES_ARP_CHECK` is
not part of this source.) -/
def etharp_arp_input (netif : Netif) (ethaddr : List Nat) (p : ArpPacket)
    (table : List Entry) : List Entry × List Ev :=
  if p.tot_len < 42 then (table, [Ev.free (.arp p.hdr)])
  else
    let for_us : Bool := ¬ netif.ip = zeroIp ∧ p.hdr.dip = netif.ip
    let u := update_arp_entry netif p.hdr.sip p.hdr.shw for_us table
    if p.hdr.opcode = 1 then
      if for_us then
        let reply := buildReply netif ethaddr p.hdr
        (u.1, u.2 ++ [Ev.out (.arp reply), Ev.free (.arp reply)])
      else (u.1, u.2 ++ [Ev.free (.arp p.hdr)])
    else
      (u.1, u.2 ++ [Ev.free (.arp p.hdr)])

/-- `err_t` values the resolver produces. -/
inductive Err where
  | ok
  | mem
  | buf
  | rte
deriving DecidableEq, Repr

/-- The environment of one `etharp_query` call: whether `pbuf_alloc` of
the request pbuf succeeds, whether `pbuf_take` of the handed packet
succeeds, and the (uninitialized) contents of the freshly allocated
`PBUF_RAM` request buffer before the fields are written. -/
structure QEnv where
  allocOk : Bool
  takeOk : Bool
  init : ArpFrame
deriving DecidableEq, Repr

/-- Modelled from the spec: `take` (`pbuf_take`) materializes a possibly
borrowed packet into owned storage, failing on allocation shortage.
Payload contents are not modelled, so the materialized packet is
represented by the same value. -/
def pbuf_take (env : QEnv) (b : Buf) : Option Buf :=
  if env.takeOk then some b else none

/-- Modelled from the spec: `tail_enqueue` (`pbuf_queue(head, extra)`)
appends `extra` at the tail of the chain `head` points to.  The callee
receives the value of the entry's queue pointer; when that pointer is
null there is no chain to append to and the entry's field cannot be
reached, so it is unchanged. -/
def pbuf_queue_onto (queue : List Buf) (b : Buf) : List Buf :=
  if queue.isEmpty then queue else queue ++ [b]

/-- The ARP request frame built by `etharp_query` over the fresh request
pbuf `init`.  The `srcaddr` the source reads its sender octets from is
not initialized in the shown source; modelled from the spec: it must be
`iface.hwaddr`. -/
def buildRequest (netif : Netif) (ip : Ip) (init : ArpFrame) : ArpFrame :=
  let n := netif.hwaddr_len
  { opcode := 1,
    shw := writeBytes netif.hwaddr init.shw n,
    dhw := writeBytes (List.replicate n 0) init.dhw n,
    dip := ip,
    sip := netif.ip,
    hwtype := 1,
    hwlen := n,
    proto := 0x800,
    protolen := 4,
    ethdest := writeBytes (List.replicate n 0xff) init.ethdest n,
    ethsrc := writeBytes netif.hwaddr init.ethsrc n,
    ethtype := 0x806 }

/-- Result of `etharp_query` and `etharp_output`: the `err_t` value, the
table after the call, and the event trace. -/
structure QRes where
  ret : Err
  table : List Entry
  evs : List Ev
deriving DecidableEq, Repr

/-- `etharp_query(netif, ipaddr, q)`: (1) emit one ARP request (when its
pbuf allocates) and free the request pbuf, (2) locate or create a cache
entry for `ipaddr` (creation leaves `ctime` untouched, as the source
does), (3) transmit `q` at once on a stable entry, or materialize and
chain it on a pending entry. -/
def etharp_query (netif : Netif) (ip : Ip) (q : Option Buf) (env : QEnv)
    (table : List Entry) : QRes :=
  let req : Err × List Ev :=
    if env.allocOk then
      let f := buildRequest netif ip env.init
      (Err.ok, [Ev.out (.arp f), Ev.free (.arp f)])
    else (Err.mem, [])
  let found :=
    match findMatch ip table with
    | some i => some (i, table, ([] : List Ev))
    | none =>
      match find_arp_entry table with
      | none => none
      | some (i, t, fevs) =>
        let e := t.getD i e0
        some (i, t.set i { e with state := .pending, ipaddr := ip, p := [] }, fevs)
  let rest : QRes :=
    match found with
    | none => ⟨Err.mem, table, []⟩
    | some (i, t2, evs2) =>
      match q with
      | none => ⟨req.1, t2, evs2⟩
      | some qb =>
        let e := t2.getD i e0
        if e.state = .stable then
          let qb1 := fillIpHdr netif e.ethaddr qb
          ⟨Err.ok, t2, evs2 ++ [Ev.out (.ip qb1)]⟩
        else if e.state = .pending then
          match pbuf_take env qb with
          | some pb => ⟨req.1, t2.set i { e with p := pbuf_queue_onto e.p pb }, evs2⟩
          | none => ⟨Err.mem, t2, evs2⟩
        else ⟨req.1, t2, evs2⟩
  ⟨rest.ret, rest.table, req.2 ++ rest.evs⟩

/-- Modelled from the spec: `ip_addr_isbroadcast(addr, netif)` holds for
the limited broadcast `255.255.255.255` and for an on-link address whose
host bits are all ones (subnet-directed broadcast). -/
def ip_addr_isbroadcast (a : Ip) (netif : Netif) : Bool :=
  a = ⟨255, 255, 255, 255⟩ ∨
  (ip_addr_maskcmp a netif.ip netif.netmask ∧
   a.a1 ||| netif.netmask.a1 = 255 ∧ a.a2 ||| netif.netmask.a2 = 255 ∧
   a.a3 ||| netif.netmask.a3 = 255 ∧ a.a4 ||| netif.netmask.a4 = 255)

/-- The multicast MAC mapping of `etharp_output`:
`01:00:5e:(b2 AND 0x7f):b3:b4`. -/
def mcastFor (a : Ip) : List Nat := [0x01, 0x00, 0x5e, a.a2 &&& 0x7f, a.a3, a.a4]

/-- `etharp_output(netif, ipaddr, q)`: grow the header (freeing `q` and
returning `ERR_BUF` on failure), pick broadcast or multicast destinations
directly, route off-link unicasts through the gateway (freeing `q` and
returning `ERR_RTE` without one), delegate unicasts to `etharp_query` —
and, as the source does on every remaining path, fall through to the
final `pbuf_free(q)`. -/
def etharp_output (netif : Netif) (ip : Ip) (q : Buf) (env : QEnv)
    (table : List Entry) : QRes :=
  if ¬ q.grow_ok then ⟨Err.buf, table, [Ev.free (.ip q)]⟩
  else if ip_addr_isany ip ∨ ip_addr_isbroadcast ip netif then
    let q1 := fillIpHdr netif ethbroadcast q
    ⟨Err.ok, table, [Ev.out (.ip q1), Ev.free (.ip q1)]⟩
  else if ip_addr_ismulticast ip then
    let q1 := fillIpHdr netif (mcastFor ip) q
    ⟨Err.ok, table, [Ev.out (.ip q1), Ev.free (.ip q1)]⟩
  else
    if ¬ ip_addr_maskcmp ip netif.ip netif.netmask then
      if ¬ netif.gw = zeroIp then
        let r := etharp_query netif netif.gw (some q) env table
        ⟨r.ret, r.table, r.evs ++ [Ev.free (.ip q)]⟩
      else ⟨Err.rte, table, [Ev.free (.ip q)]⟩
    else
      let r := etharp_query netif ip (some q) env table
      ⟨r.ret, r.table, r.evs ++ [Ev.free (.ip q)]⟩

/-- One public call to the resolver, for statements over call
sequences. -/
inductive AOp where
  | tmr
  | ipin (pkt : IpPacket)
  | arpin (mac : List Nat) (pkt : ArpPacket)
  | output (ip : Ip) (q : Buf) (env : QEnv)
  | query (ip : Ip) (q : Option Buf) (env : QEnv)
deriving DecidableEq, Repr

/-- The table after one public call. -/
def stepOp (netif : Netif) (t : List Entry) : AOp → List Entry
  | .tmr => (etharp_tmr t).1
  | .ipin pkt => (etharp_ip_input netif pkt t).1
  | .arpin mac pkt => (etharp_arp_input netif mac pkt t).1
  | .output ip q env => (etharp_output netif ip q env t).table
  | .query ip q env => (etharp_query netif ip q env t).table

/-- The table reached by a sequence of public calls from the initialized
cache of `n` slots. -/
def runOps (netif : Netif) (n : Nat) (ops : List AOp) : List Entry :=
  ops.foldl (stepOp netif) (etharp_init n)

/-! ### Specification-side functions and proof helpers -/

/-- Whether an event is a transmission of an ARP frame (a request or a
reply emitted by the resolver). -/
def isArpOut : Ev → Bool
  | .out (.arp _) => true
  | _ => false

/-- The trace the learn path's flush is specified to produce: each queued
packet in FIFO order, its Ethernet header rewritten to the learned MAC,
the local hardware address and ethertype `0x0800`, handed to
`linkoutput` and then released. -/
def expectedFlush (mac hw : List Nat) : List Buf → List Ev
  | [] => []
  | b :: rest =>
    Ev.out (.ip { b with hdr := ⟨mac, hw, 0x800⟩ }) ::
      Ev.free (.ip { b with hdr := ⟨mac, hw, 0x800⟩ }) :: expectedFlush mac hw rest

/-- Index of the first entry satisfying a predicate. -/
def firstIdxWith (p : Entry → Bool) : List Entry → Option Nat
  | [] => none
  | e :: rest => if p e then some 0 else (firstIdxWith p rest).map (· + 1)

/-- Index of the first empty slot, the claim's words for the first branch
of `find_slot`. -/
def firstEmptyIdx (table : List Entry) : Option Nat :=
  firstIdxWith (fun e => decide (e.state = .empty)) table

/-- Greatest age among the stable slots (0 when there is none). -/
def maxStableAge (table : List Entry) : Nat :=
  table.foldr (fun e m => if e.state = .stable then max e.ctime m else m) 0

/-- The claim's replacement chooser, in its own words: the stable slot
with the greatest age, taking the first such slot encountered in scan
order on ties. -/
def firstMaxStableIdx (table : List Entry) : Option Nat :=
  firstIdxWith
    (fun e => decide (e.state = .stable) && decide (e.ctime = maxStableAge table)) table

/-- Position and age of the oldest stable entry, preferring the later
slot on ties (a head entry displaces the tail's choice only when strictly
older).  This mirrors what the `maxtime`/`j` accumulators of the C scan
compute. -/
def lastMaxStable : List Entry → Option (Nat × Nat)
  | [] => none
  | e :: rest =>
    match lastMaxStable rest with
    | none => if e.state = .stable then some (0, e.ctime) else none
    | some (j, c) =>
      if e.state = .stable ∧ c < e.ctime then some (0, e.ctime) else some (j + 1, c)

/-- The invariant of claim C8: no slot outside the empty state carries
the address `0.0.0.0`. -/
def NoZeroIp (t : List Entry) : Prop :=
  ∀ e ∈ t, e.state ≠ .empty → e.ipaddr ≠ zeroIp

/-- A public call whose explicit query target (if it is a direct
`etharp_query` call) is not `0.0.0.0`. -/
def qOk : AOp → Bool
  | .query ip _ _ => ¬ ip = zeroIp
  | _ => true

/-! ### Concrete fixtures (the spec's seed scenario) -/

/-- The seed-suite interface: 10.0.0.2/24, hwaddr 02:00:00:00:00:02,
gateway 10.0.0.1. -/
def netif0 : Netif :=
  ⟨⟨10, 0, 0, 2⟩, ⟨255, 255, 255, 0⟩, ⟨10, 0, 0, 1⟩, [2, 0, 0, 0, 0, 2], 6⟩

/-- Arbitrary contents of a freshly allocated `PBUF_RAM` request buffer
(uninitialized memory). -/
def garbFrame : ArpFrame :=
  ⟨[7, 7, 7, 7, 7, 7], [6, 6, 6, 6, 6, 6], 0, 0, 0, 0, 0, 0,
   [5, 5, 5, 5, 5, 5], ⟨1, 2, 3, 4⟩, [4, 4, 4, 4, 4, 4], ⟨9, 9, 9, 9⟩⟩

/-- An environment in which every facade allocation succeeds. -/
def env0 : QEnv := ⟨true, true, garbFrame⟩

/-- An outbound IP datagram. -/
def buf0 : Buf := ⟨1, ⟨[9, 9, 9, 9, 9, 9], [8, 8, 8, 8, 8, 8], 0⟩, true⟩

/-- The destination 10.0.0.6 of the spec's pending-resolution scenario. -/
def ip6 : Ip := ⟨10, 0, 0, 6⟩

/-- A stable slot whose 8-bit age sits at the top of the `u8_t` range. -/
def eStable255 : Entry := { e0 with state := .stable, ctime := 255 }

/-- Two stable slots of equal (maximal) age: a tie for the replacement
chooser. -/
def tieTable : List Entry :=
  [{ e0 with state := .stable, ctime := 5 }, { e0 with state := .stable, ctime := 5 }]

/-- An inbound ARP request for our address whose hardware and protocol
length fields are wrong (11 and 5 instead of 6 and 4). -/
def badPkt : ArpPacket :=
  ⟨42, { garbFrame with opcode := 1, hwlen := 11, protolen := 5,
                        sip := ⟨10, 0, 0, 7⟩, dip := ⟨10, 0, 0, 2⟩,
                        shw := [2, 0, 0, 0, 0, 7] }⟩

/-- A full table with no empty slot, stable slots of ages 3 and 7 and
pending slots: the replacement victim is the age-7 stable slot. -/
def tableW : List Entry :=
  [{ e0 with state := .pending, ipaddr := ⟨10, 0, 0, 3⟩ },
   { e0 with state := .stable, ipaddr := ⟨10, 0, 0, 4⟩, ctime := 3 },
   { e0 with state := .stable, ipaddr := ⟨10, 0, 0, 5⟩, ctime := 7, p := [buf0] },
   { e0 with state := .pending, ipaddr := ⟨10, 0, 0, 8⟩ }]

/-- A one-entry table holding the pending slot for 10.0.0.6 with one
queued packet, as after the spec's scenario 2 first step. -/
def tableP : List Entry :=
  [{ e0 with state := .pending, ipaddr := ip6, p := [buf0] }]

/-- A one-entry table whose pending slot for 10.0.0.6 carries one queued
packet and is about to expire on the next tick. -/
def tableQ : List Entry :=
  [{ e0 with state := .pending, ipaddr := ip6, p := [buf0], ctime := 0 }]

/-! ### Helper lemmas -/

theorem getD_map_of_lt (f : Entry → Entry) (l : List Entry) (i : Nat)
    (h : i < l.length) (d : Entry) : (l.map f).getD i d = f (l.getD i d) := by
  have h2 : i < (l.map f).length := by simpa using h
  rw [List.getD_eq_getElem _ _ h2, List.getD_eq_getElem _ _ h, List.getElem_map]

theorem getD_set_self (l : List Entry) (i : Nat) (a : Entry) (d : Entry)
    (h : i < l.length) : (l.set i a).getD i d = a := by
  rw [List.getD_eq_getElem?_getD, List.getElem?_set_self (by simpa using h)]
  rfl

theorem tmr_getD (table : List Entry) (i : Nat) (h : i < table.length) :
    (etharp_tmr table).1.getD i e0 = (tmr_entry (table.getD i e0)).1 :=
  getD_map_of_lt _ table i h e0

theorem tmr_entry_ctime (e : Entry) :
    ((tmr_entry e).1).ctime = (e.ctime + 1) % 256 := by
  simp only [tmr_entry]
  split <;> rfl

theorem tmr_entry_not_expired (e : Entry) :
    ((tmr_entry e).1).state ≠ .expired := by
  simp only [tmr_entry]
  split
  · simp
  · next h =>
    simp only []
    intro hx
    exact h (Or.inr (Or.inr hx))

theorem tmr_entry_stable_gone (e : Entry) (hs : e.state = .stable)
    (h1 : 119 ≤ e.ctime) (h2 : e.ctime ≤ 254) :
    ((tmr_entry e).1).state = .empty ∧ ((tmr_entry e).1).p = [] ∧
    (tmr_entry e).2 = e.p.map (fun b => Ev.free (.ip b)) := by
  have hc : (e.ctime + 1) % 256 = e.ctime + 1 := Nat.mod_eq_of_lt (by omega)
  have hcond : (e.state = EState.stable ∧ 120 ≤ (e.ctime + 1) % 256) ∨
      (e.state = EState.pending ∧ 1 ≤ (e.ctime + 1) % 256) ∨ e.state = EState.expired :=
    Or.inl ⟨hs, by omega⟩
  simp only [tmr_entry]
  rw [if_pos hcond]
  exact ⟨rfl, rfl, rfl⟩

theorem tmr_entry_pending_gone (e : Entry) (hs : e.state = .pending)
    (h2 : e.ctime ≤ 254) :
    ((tmr_entry e).1).state = .empty ∧ ((tmr_entry e).1).p = [] ∧
    (tmr_entry e).2 = e.p.map (fun b => Ev.free (.ip b)) := by
  have hc : (e.ctime + 1) % 256 = e.ctime + 1 := Nat.mod_eq_of_lt (by omega)
  have hcond : (e.state = EState.stable ∧ 120 ≤ (e.ctime + 1) % 256) ∨
      (e.state = EState.pending ∧ 1 ≤ (e.ctime + 1) % 256) ∨ e.state = EState.expired :=
    Or.inr (Or.inl ⟨hs, by omega⟩)
  simp only [tmr_entry]
  rw [if_pos hcond]
  exact ⟨rfl, rfl, rfl⟩

theorem findMatch_lt (ip : Ip) : ∀ (l : List Entry) (i : Nat),
    findMatch ip l = some i → i < l.length
  | [], i => by simp [findMatch]
  | e :: rest, i => by
    simp only [findMatch]
    split
    · intro h
      cases h
      simp
    · intro h
      obtain ⟨i1, hi1, rfl⟩ := Option.map_eq_some'.mp h
      have := findMatch_lt ip rest i1 hi1
      simpa using Nat.succ_lt_succ this

theorem writeBytes_all (new old : List Nat) (n : Nat) (h1 : new.length = n)
    (h2 : old.length ≤ n) : writeBytes new old n = new := by
  rw [writeBytes, List.take_of_length_le (le_of_eq h1), List.drop_eq_nil_of_le h2,
    List.append_nil]

theorem fillIpHdr_flat (netif : Netif) (mac : List Nat) (b : Buf)
    (h6 : netif.hwaddr_len = 6) (hw : netif.hwaddr.length = 6) (hmac : mac.length = 6)
    (hbd : b.hdr.dest.length ≤ 6) (hbs : b.hdr.src.length ≤ 6) :
    fillIpHdr netif mac b = { b with hdr := ⟨mac, netif.hwaddr, 0x800⟩ } := by
  rw [fillIpHdr, h6, writeBytes_all mac _ 6 hmac hbd, writeBytes_all _ _ 6 hw hbs]

theorem flushQueue_eq_expected (netif : Netif) (mac : List Nat)
    (h6 : netif.hwaddr_len = 6) (hw : netif.hwaddr.length = 6) (hmac : mac.length = 6) :
    ∀ (q : List Buf), (∀ b ∈ q, b.hdr.dest.length ≤ 6 ∧ b.hdr.src.length ≤ 6) →
      flushQueue netif mac q = expectedFlush mac netif.hwaddr q
  | [], _ => rfl
  | b :: rest, hq => by
    have hb := hq b (by simp)
    rw [flushQueue, expectedFlush,
      fillIpHdr_flat netif mac b h6 hw hmac hb.1 hb.2,
      flushQueue_eq_expected netif mac h6 hw hmac rest (fun x hx => hq x (by simp [hx]))]

theorem mapFree_no_arpout : ∀ (l : List Buf),
    ((l.map fun b => Ev.free (.ip b)).any isArpOut) = false
  | [] => rfl
  | _ :: rest => by
    simp only [List.map_cons, List.any_cons, mapFree_no_arpout rest]
    rfl

theorem flushQueue_no_arpout (netif : Netif) (mac : List Nat) : ∀ (q : List Buf),
    ((flushQueue netif mac q).any isArpOut) = false
  | [] => rfl
  | _ :: rest => by
    simp only [flushQueue, List.any_cons, flushQueue_no_arpout netif mac rest]
    rfl

theorem find_arp_entry_no_arpout (table : List Entry) (i : Nat) (t : List Entry)
    (evs : List Ev) (h : find_arp_entry table = some (i, t, evs)) :
    evs.any isArpOut = false := by
  rw [find_arp_entry] at h
  cases hl : find_loop table 0 0 none with
  | inl k =>
    rw [hl] at h
    cases h
    rfl
  | inr j =>
    cases j with
    | none => rw [hl] at h; cases h
    | some k =>
      rw [hl] at h
      simp only [cleanupStable] at h
      by_cases hs : (table.getD k e0).state = EState.stable
      · rw [if_pos hs] at h
        cases h
        exact mapFree_no_arpout _
      · rw [if_neg hs] at h
        cases h
        rfl

theorem update_no_arpout (netif : Netif) (ip : Ip) (mac : List Nat) (ins : Bool)
    (table : List Entry) :
    ((update_arp_entry netif ip mac ins table).2).any isArpOut = false := by
  rw [update_arp_entry]
  split
  · rfl
  · cases hm : findMatch ip table with
    | some i =>
      simp only []
      exact flushQueue_no_arpout _ _ _
    | none =>
      simp only []
      split
      · cases hf : find_arp_entry table with
        | none => rfl
        | some r =>
          obtain ⟨i, t, evs⟩ := r
          simp only []
          exact find_arp_entry_no_arpout table i t evs hf
      · rfl

theorem find_loop_inl_lt : ∀ (l : List Entry) (i maxt : Nat) (j : Option Nat) (k : Nat),
    find_loop l i maxt j = .inl k → k < i + l.length
  | [], i, maxt, j, k => by simp [find_loop]
  | e :: rest, i, maxt, j, k => by
    rw [find_loop]
    split
    · intro h
      cases h
      simp
    · split
      · intro h
        have := find_loop_inl_lt rest (i + 1) e.ctime (some i) k h
        simp only [List.length_cons]
        omega
      · intro h
        have := find_loop_inl_lt rest (i + 1) maxt j k h
        simp only [List.length_cons]
        omega

theorem find_loop_inr_bound : ∀ (l : List Entry) (i maxt : Nat) (j : Option Nat) (k : Nat),
    (∀ m, j = some m → m < i) →
    find_loop l i maxt j = .inr (some k) → k < i + l.length
  | [], i, maxt, j, k => by
    intro hj h
    rw [find_loop] at h
    cases h
    have := hj k rfl
    omega
  | e :: rest, i, maxt, j, k => by
    intro hj
    rw [find_loop]
    split
    · intro h
      cases h
    · split
      · intro h
        have := find_loop_inr_bound rest (i + 1) e.ctime (some i) k
          (fun m hm => by cases hm; omega) h
        simp only [List.length_cons]
        omega
      · intro h
        have := find_loop_inr_bound rest (i + 1) maxt j k
          (fun m hm => Nat.lt_succ_of_lt (hj m hm)) h
        simp only [List.length_cons]
        omega

theorem cleanupStable_length (table : List Entry) (i : Nat) :
    (cleanupStable table i).1.length = table.length := by
  rw [cleanupStable]
  split
  · exact List.length_set table _ _
  · rfl

theorem find_arp_entry_bound (table : List Entry) (i : Nat) (t : List Entry)
    (evs : List Ev) (h : find_arp_entry table = some (i, t, evs)) :
    i < table.length ∧ t.length = table.length := by
  rw [find_arp_entry] at h
  cases hl : find_loop table 0 0 none with
  | inl k =>
    rw [hl] at h
    cases h
    exact ⟨by simpa using find_loop_inl_lt table 0 0 none i hl, rfl⟩
  | inr j =>
    cases j with
    | none => rw [hl] at h; cases h
    | some k =>
      rw [hl] at h
      cases h
      refine ⟨by simpa using find_loop_inr_bound table 0 0 none i (by simp) hl, ?_⟩
      exact cleanupStable_length table i

theorem getD_mem (l : List Entry) (i : Nat) (h : i < l.length) : l.getD i e0 ∈ l := by
  rw [List.getD_eq_getElem _ _ h]
  exact List.getElem_mem h

theorem tmr_evs_mem (table : List Entry) (i : Nat) (hi : i < table.length)
    (ev : Ev) (hev : ev ∈ (tmr_entry (table.getD i e0)).2) :
    ev ∈ (etharp_tmr table).2 := by
  rw [etharp_tmr]
  show ev ∈ (table.map (fun e => (tmr_entry e).2)).flatten
  rw [List.mem_flatten]
  exact ⟨(tmr_entry (table.getD i e0)).2,
    List.mem_map.mpr ⟨table.getD i e0, getD_mem table i hi, rfl⟩, hev⟩

theorem noZero_set (t : List Entry) (i : Nat) (a : Entry)
    (ht : NoZeroIp t) (ha : a.state ≠ .empty → a.ipaddr ≠ zeroIp) :
    NoZeroIp (t.set i a) := by
  intro e he hs
  rcases List.mem_or_eq_of_mem_set he with h | rfl
  · exact ht e h hs
  · exact ha hs

theorem noZero_cleanup (t : List Entry) (i : Nat) (ht : NoZeroIp t) :
    NoZeroIp (cleanupStable t i).1 := by
  rw [cleanupStable]
  split
  · exact noZero_set t i _ ht (fun h => absurd rfl h)
  · exact ht

theorem noZero_find (table : List Entry) (i : Nat) (t : List Entry) (evs : List Ev)
    (ht : NoZeroIp table) (h : find_arp_entry table = some (i, t, evs)) :
    NoZeroIp t := by
  rw [find_arp_entry] at h
  cases hl : find_loop table 0 0 none with
  | inl k =>
    rw [hl] at h
    cases h
    exact ht
  | inr j =>
    cases j with
    | none => rw [hl] at h; cases h
    | some k =>
      rw [hl] at h
      cases h
      exact noZero_cleanup table i ht

theorem findMatch_ip (ip : Ip) : ∀ (l : List Entry) (i : Nat),
    findMatch ip l = some i → (l.getD i e0).ipaddr = ip
  | [], i => by simp [findMatch]
  | e :: rest, i => by
    simp only [findMatch]
    split
    · next hcond =>
      intro h
      cases h
      exact hcond.2
    · intro h
      obtain ⟨i1, hi1, rfl⟩ := Option.map_eq_some'.mp h
      simpa using findMatch_ip ip rest i1 hi1

theorem noZero_update (netif : Netif) (ip : Ip) (mac : List Nat) (ins : Bool)
    (table : List Entry) (ht : NoZeroIp table) :
    NoZeroIp (update_arp_entry netif ip mac ins table).1 := by
  rw [update_arp_entry]
  split
  · exact ht
  · next hz =>
    cases hm : findMatch ip table with
    | some i =>
      simp only []
      refine noZero_set table i _ ht (fun _ => ?_)
      show ¬ (table.getD i e0).ipaddr = zeroIp
      rw [findMatch_ip ip table i hm]
      exact hz
    | none =>
      simp only []
      split
      · cases hf : find_arp_entry table with
        | none => exact ht
        | some r =>
          obtain ⟨i, t, evs⟩ := r
          simp only []
          refine noZero_set t i _ (noZero_find table i t evs ht hf) (fun _ => ?_)
          exact hz
      · exact ht

theorem noZero_tmr_entry (e : Entry) (he : e.state ≠ .empty → e.ipaddr ≠ zeroIp) :
    ((tmr_entry e).1).state ≠ .empty → ((tmr_entry e).1).ipaddr ≠ zeroIp := by
  rw [tmr_entry]
  split
  · intro h
    exact absurd rfl h
  · exact he

theorem noZero_tmr (t : List Entry) (ht : NoZeroIp t) : NoZeroIp (etharp_tmr t).1 := by
  intro e' he'
  rw [etharp_tmr] at he'
  obtain ⟨e, he, rfl⟩ := List.mem_map.mp he'
  exact noZero_tmr_entry e (ht e he)

theorem noZero_queryAttachSet (t2 : List Entry) (i : Nat) (pb : Buf)
    (ht2 : NoZeroIp t2) (hne : (t2.getD i e0).state ≠ .empty) :
    NoZeroIp (t2.set i
      { t2.getD i e0 with p := pbuf_queue_onto (t2.getD i e0).p pb }) := by
  refine noZero_set t2 i _ ht2 (fun _ => ?_)
  show (t2.getD i e0).ipaddr ≠ zeroIp
  by_cases hlt : i < t2.length
  · exact ht2 _ (getD_mem t2 i hlt) hne
  · exfalso
    apply hne
    rw [List.getD_eq_default _ _ (by omega)]
    rfl

theorem noZero_query (netif : Netif) (ip : Ip) (q : Option Buf) (env : QEnv)
    (table : List Entry) (hip : ip ≠ zeroIp) (ht : NoZeroIp table) :
    NoZeroIp (etharp_query netif ip q env table).table := by
  rw [etharp_query]
  simp only []
  cases hm : findMatch ip table with
  | some i =>
    simp only [hm]
    cases q with
    | none => exact ht
    | some qb =>
      simp only []
      by_cases hst : (table.getD i e0).state = EState.stable
      · rw [if_pos hst]
        exact ht
      · rw [if_neg hst]
        by_cases hsp : (table.getD i e0).state = EState.pending
        · rw [if_pos hsp]
          cases htk : pbuf_take env qb with
          | some pb =>
            exact noZero_queryAttachSet table i pb ht (by rw [hsp]; simp)
          | none => exact ht
        · rw [if_neg hsp]
          exact ht
  | none =>
    simp only [hm]
    cases hf : find_arp_entry table with
    | none => exact ht
    | some r =>
      obtain ⟨i, t, evs⟩ := r
      simp only []
      have ht2 : NoZeroIp
          (t.set i { t.getD i e0 with state := .pending, ipaddr := ip, p := [] }) :=
        noZero_set t i _ (noZero_find table i t evs ht hf) (fun _ => hip)
      cases q with
      | none => exact ht2
      | some qb =>
        simp only []
        by_cases hst :
            ((t.set i { t.getD i e0 with state := .pending, ipaddr := ip, p := [] }).getD
              i e0).state = EState.stable
        · rw [if_pos hst]
          exact ht2
        · rw [if_neg hst]
          by_cases hsp :
              ((t.set i { t.getD i e0 with state := .pending, ipaddr := ip, p := [] }).getD
                i e0).state = EState.pending
          · rw [if_pos hsp]
            cases htk : pbuf_take env qb with
            | some pb =>
              exact noZero_queryAttachSet _ i pb ht2 (by rw [hsp]; simp)
            | none => exact ht2
          · rw [if_neg hsp]
            exact ht2

theorem noZero_output (netif : Netif) (ip : Ip) (q : Buf) (env : QEnv)
    (table : List Entry) (ht : NoZeroIp table) :
    NoZeroIp (etharp_output netif ip q env table).table := by
  rw [etharp_output]
  by_cases hg : ¬ q.grow_ok = true
  · rw [if_pos hg]
    exact ht
  · rw [if_neg hg]
    by_cases hb : ip_addr_isany ip = true ∨ ip_addr_isbroadcast ip netif = true
    · rw [if_pos hb]
      exact ht
    · rw [if_neg hb]
      by_cases hmc : ip_addr_ismulticast ip = true
      · rw [if_pos hmc]
        exact ht
      · rw [if_neg hmc]
        have hip : ip ≠ zeroIp := by
          intro h
          exact hb (Or.inl (by simp [ip_addr_isany, h]))
        by_cases hon : ¬ ip_addr_maskcmp ip netif.ip netif.netmask = true
        · rw [if_pos hon]
          by_cases hgw : ¬ netif.gw = zeroIp
          · rw [if_pos hgw]
            exact noZero_query netif netif.gw (some q) env table (by simpa using hgw) ht
          · rw [if_neg hgw]
            exact ht
        · rw [if_neg hon]
          exact noZero_query netif ip (some q) env table hip ht

theorem noZero_arp_input (netif : Netif) (ethaddr : List Nat) (p : ArpPacket)
    (table : List Entry) (ht : NoZeroIp table) :
    NoZeroIp (etharp_arp_input netif ethaddr p table).1 := by
  rw [etharp_arp_input]
  split
  · exact ht
  · simp only []
    have hu := noZero_update netif p.hdr.sip p.hdr.shw
      (decide (¬netif.ip = zeroIp ∧ p.hdr.dip = netif.ip)) table ht
    split
    · split
      · exact hu
      · exact hu
    · exact hu

theorem noZero_ip_input (netif : Netif) (pkt : IpPacket) (table : List Entry)
    (ht : NoZeroIp table) : NoZeroIp (etharp_ip_input netif pkt table).1 := by
  rw [etharp_ip_input]
  split
  · exact ht
  · exact noZero_update netif pkt.src_ip pkt.src_mac true table ht

theorem noZero_step (netif : Netif) (t : List Entry) (op : AOp)
    (hop : qOk op = true) (ht : NoZeroIp t) : NoZeroIp (stepOp netif t op) := by
  cases op with
  | tmr => exact noZero_tmr t ht
  | ipin pkt => exact noZero_ip_input netif pkt t ht
  | arpin mac pkt => exact noZero_arp_input netif mac pkt t ht
  | output ip q env => exact noZero_output netif ip q env t ht
  | query ip q env =>
    refine noZero_query netif ip q env t ?_ ht
    simpa [qOk] using hop

theorem noZero_fold (netif : Netif) : ∀ (ops : List AOp) (t : List Entry),
    (∀ op ∈ ops, qOk op = true) → NoZeroIp t →
    NoZeroIp (ops.foldl (stepOp netif) t)
  | [], t, _, ht => ht
  | op :: rest, t, hops, ht => by
    rw [List.foldl_cons]
    exact noZero_fold netif rest (stepOp netif t op)
      (fun x hx => hops x (by simp [hx]))
      (noZero_step netif t op (hops op (by simp)) ht)

theorem firstIdxWith_none (p : Entry → Bool) : ∀ (l : List Entry),
    firstIdxWith p l = none → ∀ e ∈ l, p e = false
  | [], _, e, he => by cases he
  | a :: rest, h, e, he => by
    rw [firstIdxWith] at h
    by_cases hp : p a = true
    · rw [if_pos hp] at h
      cases h
    · rw [if_neg hp] at h
      rcases List.mem_cons.mp he with rfl | hm
      · exact Bool.eq_false_iff.mpr hp
      · exact firstIdxWith_none p rest (by simpa using h) e hm

theorem firstEmpty_find_loop : ∀ (l : List Entry) (i0 maxt : Nat) (j : Option Nat) (k : Nat),
    firstIdxWith (fun e => decide (e.state = .empty)) l = some k →
    find_loop l i0 maxt j = .inl (i0 + k)
  | [], i0, maxt, j, k => by simp [firstIdxWith]
  | a :: rest, i0, maxt, j, k => by
    rw [firstIdxWith]
    by_cases hp : a.state = EState.empty
    · rw [if_pos (by simpa using hp)]
      intro h
      cases h
      rw [find_loop, if_pos hp]
      simp
    · rw [if_neg (by simpa using hp)]
      intro h
      obtain ⟨k1, hk1, rfl⟩ := Option.map_eq_some'.mp h
      rw [find_loop, if_neg hp]
      split
      · rw [firstEmpty_find_loop rest (i0 + 1) _ _ k1 hk1]
        congr 1
        omega
      · rw [firstEmpty_find_loop rest (i0 + 1) _ _ k1 hk1]
        congr 1
        omega

theorem lms_cons_not_stable (e : Entry) (rest : List Entry)
    (hs : ¬ e.state = EState.stable) :
    lastMaxStable (e :: rest) =
      (lastMaxStable rest).map (fun kc => (kc.1 + 1, kc.2)) := by
  cases h2 : lastMaxStable rest with
  | none =>
    simp only [lastMaxStable, h2, Option.map_none']
    rw [if_neg hs]
  | some kc =>
    obtain ⟨k, c⟩ := kc
    simp only [lastMaxStable, h2, Option.map_some']
    have hc : ¬ (e.state = EState.stable ∧ c < e.ctime) := fun hx => hs hx.1
    rw [if_neg hc]

theorem lms_cons_stable_none (e : Entry) (rest : List Entry)
    (hs : e.state = EState.stable) (h : lastMaxStable rest = none) :
    lastMaxStable (e :: rest) = some (0, e.ctime) := by
  simp only [lastMaxStable, h]
  rw [if_pos hs]

theorem lms_cons_stable_lt (e : Entry) (rest : List Entry) (k c : Nat)
    (hs : e.state = EState.stable) (h : lastMaxStable rest = some (k, c))
    (hcc : c < e.ctime) :
    lastMaxStable (e :: rest) = some (0, e.ctime) := by
  simp only [lastMaxStable, h]
  have hc : e.state = EState.stable ∧ c < e.ctime := ⟨hs, hcc⟩
  rw [if_pos hc]

theorem lms_cons_stable_ge (e : Entry) (rest : List Entry) (k c : Nat)
    (h : lastMaxStable rest = some (k, c)) (hcc : e.ctime ≤ c) :
    lastMaxStable (e :: rest) = some (k + 1, c) := by
  simp only [lastMaxStable, h]
  have hc : ¬ (e.state = EState.stable ∧ c < e.ctime) :=
    fun hx => absurd hx.2 (by omega)
  rw [if_neg hc]

theorem opt_pair_inj {a b k c : Nat}
    (h : (some (a, b) : Option (Nat × Nat)) = some (k, c)) : k = a ∧ c = b := by
  injection h with h1
  exact ⟨(congrArg Prod.fst h1).symm, (congrArg Prod.snd h1).symm⟩

theorem find_loop_no_empty : ∀ (l : List Entry) (i maxt : Nat) (j : Option Nat),
    (∀ e ∈ l, e.state ≠ .empty) →
    find_loop l i maxt j = .inr (match lastMaxStable l with
      | none => j
      | some (k, c) => if maxt ≤ c then some (i + k) else j)
  | [], _, _, _, _ => rfl
  | e :: rest, i, maxt, j, h => by
    have he : e.state ≠ .empty := h e (List.mem_cons_self e rest)
    have hr : ∀ x ∈ rest, x.state ≠ .empty := fun x hx => h x (List.mem_cons_of_mem e hx)
    rw [find_loop, if_neg he]
    by_cases hs : e.state = EState.stable
    · by_cases hm : maxt ≤ e.ctime
      · have hcond : e.state = EState.stable ∧ maxt ≤ e.ctime := ⟨hs, hm⟩
        rw [if_pos hcond, find_loop_no_empty rest (i + 1) e.ctime (some i) hr]
        cases hlms : lastMaxStable rest with
        | none =>
          rw [lms_cons_stable_none e rest hs hlms]
          simp only []
          rw [if_pos hm]
          simp
        | some kc =>
          obtain ⟨k1, c1⟩ := kc
          by_cases hcc : c1 < e.ctime
          · rw [lms_cons_stable_lt e rest k1 c1 hs hlms hcc]
            simp only []
            have h1 : ¬ e.ctime ≤ c1 := by omega
            rw [if_neg h1, if_pos hm]
            simp
          · have hle : e.ctime ≤ c1 := by omega
            rw [lms_cons_stable_ge e rest k1 c1 hlms hle]
            simp only []
            have h2 : maxt ≤ c1 := le_trans hm hle
            rw [if_pos hle, if_pos h2]
            have h3 : i + 1 + k1 = i + (k1 + 1) := by omega
            rw [h3]
      · have hcond : ¬ (e.state = EState.stable ∧ maxt ≤ e.ctime) := fun hx => hm hx.2
        rw [if_neg hcond, find_loop_no_empty rest (i + 1) maxt j hr]
        cases hlms : lastMaxStable rest with
        | none =>
          rw [lms_cons_stable_none e rest hs hlms]
          simp only []
          have h1 : ¬ maxt ≤ e.ctime := hm
          rw [if_neg h1]
        | some kc =>
          obtain ⟨k1, c1⟩ := kc
          by_cases hcc : c1 < e.ctime
          · rw [lms_cons_stable_lt e rest k1 c1 hs hlms hcc]
            simp only []
            have h1 : ¬ maxt ≤ c1 := by omega
            have h2 : ¬ maxt ≤ e.ctime := hm
            rw [if_neg h1, if_neg h2]
          · have hle : e.ctime ≤ c1 := by omega
            rw [lms_cons_stable_ge e rest k1 c1 hlms hle]
            simp only []
            by_cases hmx : maxt ≤ c1
            · rw [if_pos hmx, if_pos hmx]
              have h3 : i + 1 + k1 = i + (k1 + 1) := by omega
              rw [h3]
            · rw [if_neg hmx, if_neg hmx]
    · have hcond : ¬ (e.state = EState.stable ∧ maxt ≤ e.ctime) := fun hx => hs hx.1
      rw [if_neg hcond, find_loop_no_empty rest (i + 1) maxt j hr]
      cases hlms : lastMaxStable rest with
      | none =>
        rw [lms_cons_not_stable e rest hs, hlms]
        rfl
      | some kc =>
        obtain ⟨k1, c1⟩ := kc
        rw [lms_cons_not_stable e rest hs, hlms]
        simp only [Option.map_some']
        by_cases hmx : maxt ≤ c1
        · rw [if_pos hmx, if_pos hmx]
          have h3 : i + 1 + k1 = i + (k1 + 1) := by omega
          rw [h3]
        · rw [if_neg hmx, if_neg hmx]

theorem lms_none : ∀ (l : List Entry), lastMaxStable l = none →
    ∀ e ∈ l, e.state ≠ .stable
  | [], _, e, he => by cases he
  | a :: rest, h, e, he => by
    by_cases hs : a.state = EState.stable
    · exfalso
      cases hlms : lastMaxStable rest with
      | none =>
        rw [lms_cons_stable_none a rest hs hlms] at h
        cases h
      | some kc =>
        obtain ⟨k, c⟩ := kc
        by_cases hcc : c < a.ctime
        · rw [lms_cons_stable_lt a rest k c hs hlms hcc] at h
          cases h
        · rw [lms_cons_stable_ge a rest k c hlms (by omega)] at h
          cases h
    · rcases List.mem_cons.mp he with rfl | hm
      · exact hs
      · rw [lms_cons_not_stable a rest hs] at h
        cases hlms : lastMaxStable rest with
        | none => exact lms_none rest hlms e hm
        | some kc =>
          rw [hlms] at h
          cases h

theorem lms_total : ∀ (l : List Entry), (∀ e ∈ l, e.state ≠ .stable) →
    lastMaxStable l = none
  | [], _ => rfl
  | a :: rest, h => by
    rw [lms_cons_not_stable a rest (h a (List.mem_cons_self a rest)),
      lms_total rest (fun x hx => h x (List.mem_cons_of_mem a hx))]
    rfl

theorem lms_stable : ∀ (l : List Entry) (k c : Nat), lastMaxStable l = some (k, c) →
    k < l.length ∧ (l.getD k e0).state = .stable ∧ (l.getD k e0).ctime = c
  | [], k, c => by simp [lastMaxStable]
  | e :: rest, k, c => by
    intro h
    cases hlms : lastMaxStable rest with
    | none =>
      by_cases hs : e.state = EState.stable
      · rw [lms_cons_stable_none e rest hs hlms] at h
        obtain ⟨rfl, rfl⟩ := opt_pair_inj h
        exact ⟨by simp, by simpa using hs, by simp⟩
      · rw [lms_cons_not_stable e rest hs, hlms] at h
        cases h
    | some kc =>
      obtain ⟨k1, c1⟩ := kc
      by_cases hs : e.state = EState.stable
      · by_cases hcc : c1 < e.ctime
        · rw [lms_cons_stable_lt e rest k1 c1 hs hlms hcc] at h
          obtain ⟨rfl, rfl⟩ := opt_pair_inj h
          exact ⟨by simp, by simpa using hs, by simp⟩
        · rw [lms_cons_stable_ge e rest k1 c1 hlms (by omega)] at h
          obtain ⟨rfl, rfl⟩ := opt_pair_inj h
          have ih := lms_stable rest k1 c hlms
          refine ⟨by simpa using Nat.succ_lt_succ ih.1, ?_, ?_⟩
          · simpa [List.getD_cons_succ] using ih.2.1
          · simpa [List.getD_cons_succ] using ih.2.2
      · rw [lms_cons_not_stable e rest hs, hlms] at h
        simp only [Option.map_some'] at h
        obtain ⟨rfl, rfl⟩ := opt_pair_inj h
        have ih := lms_stable rest k1 c hlms
        refine ⟨by simpa using Nat.succ_lt_succ ih.1, ?_, ?_⟩
        · simpa [List.getD_cons_succ] using ih.2.1
        · simpa [List.getD_cons_succ] using ih.2.2

theorem lms_ge : ∀ (l : List Entry) (k c : Nat), lastMaxStable l = some (k, c) →
    ∀ m, m < l.length → (l.getD m e0).state = .stable → (l.getD m e0).ctime ≤ c
  | [], k, c => by simp [lastMaxStable]
  | e :: rest, k, c => by
    intro h m hm hsm
    cases hlms : lastMaxStable rest with
    | none =>
      by_cases hs : e.state = EState.stable
      · rw [lms_cons_stable_none e rest hs hlms] at h
        obtain ⟨rfl, rfl⟩ := opt_pair_inj h
        match m with
        | 0 => simp
        | m' + 1 =>
          exfalso
          refine lms_none rest hlms (rest.getD m' e0) ?_ (by simpa using hsm)
          exact getD_mem rest m' (by simpa using hm)
      · rw [lms_cons_not_stable e rest hs, hlms] at h
        cases h
    | some kc =>
      obtain ⟨k1, c1⟩ := kc
      by_cases hs : e.state = EState.stable
      · by_cases hcc : c1 < e.ctime
        · rw [lms_cons_stable_lt e rest k1 c1 hs hlms hcc] at h
          obtain ⟨rfl, rfl⟩ := opt_pair_inj h
          match m with
          | 0 => simp
          | m' + 1 =>
            have := lms_ge rest k1 c1 hlms m' (by simpa using hm) (by simpa using hsm)
            simp only [List.getD_cons_succ]
            omega
        · rw [lms_cons_stable_ge e rest k1 c1 hlms (by omega)] at h
          obtain ⟨rfl, rfl⟩ := opt_pair_inj h
          match m with
          | 0 =>
            simp only [List.getD_cons_zero]
            omega
          | m' + 1 =>
            exact lms_ge rest k1 c hlms m' (by simpa using hm) (by simpa using hsm)
      · rw [lms_cons_not_stable e rest hs, hlms] at h
        simp only [Option.map_some'] at h
        obtain ⟨rfl, rfl⟩ := opt_pair_inj h
        match m with
        | 0 =>
          simp only [List.getD_cons_zero] at hsm
          exact absurd hsm hs
        | m' + 1 =>
          exact lms_ge rest k1 c hlms m' (by simpa using hm) (by simpa using hsm)

theorem lms_after : ∀ (l : List Entry) (k c : Nat), lastMaxStable l = some (k, c) →
    ∀ m, k < m → m < l.length → (l.getD m e0).state = .stable →
      (l.getD m e0).ctime < c
  | [], k, c => by simp [lastMaxStable]
  | e :: rest, k, c => by
    intro h m hkm hm hsm
    cases hlms : lastMaxStable rest with
    | none =>
      by_cases hs : e.state = EState.stable
      · rw [lms_cons_stable_none e rest hs hlms] at h
        obtain ⟨rfl, rfl⟩ := opt_pair_inj h
        match m with
        | 0 => omega
        | m' + 1 =>
          exfalso
          refine lms_none rest hlms (rest.getD m' e0) ?_ (by simpa using hsm)
          exact getD_mem rest m' (by simpa using hm)
      · rw [lms_cons_not_stable e rest hs, hlms] at h
        cases h
    | some kc =>
      obtain ⟨k1, c1⟩ := kc
      by_cases hs : e.state = EState.stable
      · by_cases hcc : c1 < e.ctime
        · rw [lms_cons_stable_lt e rest k1 c1 hs hlms hcc] at h
          obtain ⟨rfl, rfl⟩ := opt_pair_inj h
          match m with
          | 0 => omega
          | m' + 1 =>
            have := lms_ge rest k1 c1 hlms m' (by simpa using hm) (by simpa using hsm)
            simp only [List.getD_cons_succ]
            omega
        · rw [lms_cons_stable_ge e rest k1 c1 hlms (by omega)] at h
          obtain ⟨rfl, rfl⟩ := opt_pair_inj h
          match m with
          | 0 => omega
          | m' + 1 =>
            exact lms_after rest k1 c hlms m' (by omega) (by simpa using hm)
              (by simpa using hsm)
      · rw [lms_cons_not_stable e rest hs, hlms] at h
        simp only [Option.map_some'] at h
        obtain ⟨rfl, rfl⟩ := opt_pair_inj h
        match m with
        | 0 =>
          simp only [List.getD_cons_zero] at hsm
          exact absurd hsm hs
        | m' + 1 =>
          exact lms_after rest k1 c hlms m' (by omega) (by simpa using hm)
            (by simpa using hsm)

/-! ### Claim theorems -/

/-- C1: at the broadcast destination 0.0.0.0 (a success path), the
dispatcher hands the filled frame to `linkoutput` and then still executes
the final `pbuf_free` on the very same buffer: the buffer is released
after the hand-off, although the call succeeds (`ERR_OK`).  This
contradicts the claim (and the source's own comment that the final free
is "never reached"). -/
theorem claim_C1_output_frees_after_handoff :
    (etharp_output netif0 zeroIp buf0 env0 (etharp_init 4)).ret = Err.ok ∧
    (etharp_output netif0 zeroIp buf0 env0 (etharp_init 4)).evs =
      [Ev.out (.ip ⟨1, ⟨[255, 255, 255, 255, 255, 255], [2, 0, 0, 0, 0, 2], 0x800⟩, true⟩),
       Ev.free (.ip ⟨1, ⟨[255, 255, 255, 255, 255, 255], [2, 0, 0, 0, 0, 2], 0x800⟩, true⟩)] := by
  decide

/-- C3: querying 10.0.0.6 from the empty cache with a packet to deliver
(every facade allocation succeeding) creates the pending entry but leaves
its queue empty — `pbuf_queue` receives the entry's null queue pointer by
value and the entry's field is never assigned, so the materialized packet
is not attached, contradicting the claim and the source's own doc
comment ("The packet is queued on this entry."). -/
theorem claim_C3_query_does_not_attach :
    ((etharp_query netif0 ip6 (some buf0) env0 (etharp_init 4)).table.getD 0 e0).state
        = EState.pending ∧
    ((etharp_query netif0 ip6 (some buf0) env0 (etharp_init 4)).table.getD 0 e0).ipaddr = ip6 ∧
    ((etharp_query netif0 ip6 (some buf0) env0 (etharp_init 4)).table.getD 0 e0).p = [] ∧
    (etharp_query netif0 ip6 (some buf0) env0 (etharp_init 4)).ret = Err.ok := by
  decide

/-- C7: after a single aging tick on the freshly initialized cache every
slot's age is 1; the pending entry `etharp_query` then creates for
10.0.0.6 inherits that age — its creation path never resets `ctime` — so
a newly created entry has age 1 ≠ 0, contradicting the claim. -/
theorem claim_C7_created_entry_age_nonzero :
    ((etharp_query netif0 ip6 none env0 ((etharp_tmr (etharp_init 4)).1)).table.getD 0 e0).state
        = EState.pending ∧
    ((etharp_query netif0 ip6 none env0 ((etharp_tmr (etharp_init 4)).1)).table.getD 0 e0).ctime
        = 1 := by
  decide

/-- C5 counterexample: a stable slot whose 8-bit age is 255 satisfies the
claim's hypothesis `age ≥ 120`, yet after one tick it is still stable:
the `u8_t` increment wraps 255 to 0, which is below `ARP_MAXAGE`. -/
theorem claim_C5_counterexample :
    (120 ≤ eStable255.ctime ∧ eStable255.state = EState.stable) ∧
    ((etharp_tmr [eStable255]).1.getD 0 e0).state = EState.stable := by
  decide

/-- C6 counterexample: on a table of two stable slots of equal maximal
age the code returns slot 1 — the `>=` comparison keeps the last slot
encountered — while the claim's chooser (first such slot in scan order)
names slot 0. -/
theorem claim_C6_counterexample :
    (find_arp_entry tieTable).map (fun r => r.1) = some 1 ∧
    firstMaxStableIdx tieTable = some 0 := by
  decide

/-- C8 counterexample: the public call sequence consisting of the single
call `query(netif, 0.0.0.0, NULL)` leaves a cache entry in state pending
whose address is 0.0.0.0 — `etharp_query` never checks its target
against `0.0.0.0` before inserting. -/
theorem claim_C8_counterexample :
    ((runOps netif0 4 [AOp.query zeroIp none env0]).getD 0 e0).state = EState.pending ∧
    ((runOps netif0 4 [AOp.query zeroIp none env0]).getD 0 e0).ipaddr = zeroIp := by
  decide

/-- C9 counterexample: an inbound ARP request for our address whose
hardware-length field is 11 and protocol-length field is 5 (both wrong)
is not dropped: the handler emits an ARP reply for it, because the
length fields are never validated. -/
theorem claim_C9_counterexample :
    badPkt.hdr.hwlen = 11 ∧ badPkt.hdr.protolen = 5 ∧
    (etharp_arp_input netif0 [2, 0, 0, 0, 0, 2] badPkt (etharp_init 4)).2.any isArpOut
        = true := by
  decide

/-- C10 counterexample: an (empty) slot whose 8-bit age is 255 has age 0
after the next tick — the `u8_t` increment wraps instead of saturating,
so the age is not monotonically non-decreasing. -/
theorem claim_C10_counterexample :
    ({ e0 with ctime := 255 } : Entry).ctime = 255 ∧
    ((etharp_tmr [{ e0 with ctime := 255 }]).1.getD 0 e0).ctime = 0 := by
  decide

/-- C10 (amended): the 8-bit age counter of every slot, in any state,
is incremented modulo 256 by each tick: while it is below 255 it
increases by exactly one (so it is non-decreasing there), and from 255
it wraps to 0 rather than saturating. -/
theorem claim_C10_age_increment (table : List Entry) (i : Nat)
    (hi : i < table.length) :
    ((table.getD i e0).ctime < 255 →
      ((etharp_tmr table).1.getD i e0).ctime = (table.getD i e0).ctime + 1) ∧
    ((table.getD i e0).ctime = 255 →
      ((etharp_tmr table).1.getD i e0).ctime = 0) := by
  rw [tmr_getD table i hi, tmr_entry_ctime]
  constructor
  · intro h
    exact Nat.mod_eq_of_lt (by omega)
  · intro h
    rw [h]

/-- Witness for C10: the freshly initialized slot has age 0 and age 1
after one tick. -/
theorem claim_C10_age_increment_witness :
    ((etharp_tmr (etharp_init 1)).1.getD 0 e0).ctime = ((etharp_init 1).getD 0 e0).ctime + 1 :=
  (claim_C10_age_increment (etharp_init 1) 0 (by decide)).1 (by decide)

/-- C5 (amended): after a tick no slot is in the transient expired
state; a slot that was stable with age in 119..254 before the tick
(which covers every reachable stable age at or beyond 119, and in
particular the claim's age 119 boundary and ages 120..254), and a slot
that was pending with age at most 254, are empty when the tick returns,
with their queued buffers released: the slot contributes exactly one
`pbuf_free` event per queued buffer to the tick's event trace, and each
of those release events is in the trace of the whole tick.  (At age 255
the 8-bit counter wraps to 0 and the slot survives, which is what the
counterexample exhibits.) -/
theorem claim_C5_tick_expiry (table : List Entry) (i : Nat)
    (hi : i < table.length) :
    (((etharp_tmr table).1.getD i e0).state ≠ EState.expired) ∧
    ((table.getD i e0).state = EState.stable → 119 ≤ (table.getD i e0).ctime →
      (table.getD i e0).ctime ≤ 254 →
      ((etharp_tmr table).1.getD i e0).state = EState.empty ∧
      ((etharp_tmr table).1.getD i e0).p = [] ∧
      (tmr_entry (table.getD i e0)).2 =
        (table.getD i e0).p.map (fun b => Ev.free (.ip b)) ∧
      ∀ b ∈ (table.getD i e0).p, Ev.free (.ip b) ∈ (etharp_tmr table).2) ∧
    ((table.getD i e0).state = EState.pending → (table.getD i e0).ctime ≤ 254 →
      ((etharp_tmr table).1.getD i e0).state = EState.empty ∧
      ((etharp_tmr table).1.getD i e0).p = [] ∧
      (tmr_entry (table.getD i e0)).2 =
        (table.getD i e0).p.map (fun b => Ev.free (.ip b)) ∧
      ∀ b ∈ (table.getD i e0).p, Ev.free (.ip b) ∈ (etharp_tmr table).2) := by
  refine ⟨?_, ?_, ?_⟩
  · rw [tmr_getD table i hi]
    exact tmr_entry_not_expired _
  · intro hs h1 h2
    have hg := tmr_entry_stable_gone _ hs h1 h2
    rw [tmr_getD table i hi]
    refine ⟨hg.1, hg.2.1, hg.2.2, ?_⟩
    intro b hb
    refine tmr_evs_mem table i hi _ ?_
    rw [hg.2.2]
    exact List.mem_map.mpr ⟨b, hb, rfl⟩
  · intro hs h2
    have hg := tmr_entry_pending_gone _ hs h2
    rw [tmr_getD table i hi]
    refine ⟨hg.1, hg.2.1, hg.2.2, ?_⟩
    intro b hb
    refine tmr_evs_mem table i hi _ ?_
    rw [hg.2.2]
    exact List.mem_map.mpr ⟨b, hb, rfl⟩

/-- Witness for C5: a stable slot at age 119 is empty after the very
next tick and not expired, and the pending slot of `tableQ`, which
carries one queued packet, is emptied by the tick with that packet's
release event in the tick's trace. -/
theorem claim_C5_tick_expiry_witness :
    (((etharp_tmr [{ e0 with state := .stable, ctime := 119 }]).1.getD 0 e0).state
        ≠ EState.expired) ∧
    ((etharp_tmr [{ e0 with state := .stable, ctime := 119 }]).1.getD 0 e0).state
        = EState.empty ∧
    ((etharp_tmr tableQ).1.getD 0 e0).state = EState.empty ∧
    ((etharp_tmr tableQ).1.getD 0 e0).p = [] ∧
    Ev.free (.ip buf0) ∈ (etharp_tmr tableQ).2 :=
  ⟨(claim_C5_tick_expiry [{ e0 with state := .stable, ctime := 119 }] 0 (by decide)).1,
   ((claim_C5_tick_expiry [{ e0 with state := .stable, ctime := 119 }] 0 (by decide)).2.1
     (by decide) (by decide) (by decide)).1,
   ((claim_C5_tick_expiry tableQ 0 (by decide)).2.2 (by decide) (by decide)).1,
   ((claim_C5_tick_expiry tableQ 0 (by decide)).2.2 (by decide) (by decide)).2.1,
   ((claim_C5_tick_expiry tableQ 0 (by decide)).2.2 (by decide) (by decide)).2.2.2
     buf0 (by decide)⟩

/-- C2: when `update_arp_entry` finds the matching cache entry in state
pending (the scan returning slot `i`), the slot is stable with the new
MAC and age 0 and an empty queue on return, and the event trace is
exactly the queue in FIFO order, each buffer emitted once through
`linkoutput` with its Ethernet header rewritten to `dest = mac`,
`src = iface.hwaddr`, `type = 0x0800` and then released.  (Hardware
addresses are six octets wide, as on Ethernet.) -/
theorem claim_C2_pending_resolution (netif : Netif) (ip : Ip) (mac : List Nat)
    (insert : Bool) (table : List Entry) (i : Nat)
    (hz : ip ≠ zeroIp)
    (hm : findMatch ip table = some i)
    (_hp : (table.getD i e0).state = EState.pending)
    (h6 : netif.hwaddr_len = 6) (hw : netif.hwaddr.length = 6)
    (hmac : mac.length = 6)
    (hold : (table.getD i e0).ethaddr.length ≤ 6)
    (hq : ∀ b ∈ (table.getD i e0).p, b.hdr.dest.length ≤ 6 ∧ b.hdr.src.length ≤ 6) :
    (update_arp_entry netif ip mac insert table).1.getD i e0 =
      { table.getD i e0 with state := .stable, ethaddr := mac, ctime := 0, p := [] } ∧
    (update_arp_entry netif ip mac insert table).2 =
      expectedFlush mac netif.hwaddr (table.getD i e0).p := by
  have hlt : i < table.length := findMatch_lt ip table i hm
  simp only [update_arp_entry, if_neg hz, hm]
  refine ⟨?_, ?_⟩
  · rw [getD_set_self _ _ _ _ hlt]
    have he : writeBytes mac (table.getD i e0).ethaddr netif.hwaddr_len = mac :=
      writeBytes_all mac _ netif.hwaddr_len (h6 ▸ hmac) (h6 ▸ hold)
    rw [he]
  · exact flushQueue_eq_expected netif mac h6 hw hmac _ hq

/-- Witness for C2: resolving the pending entry for 10.0.0.6 holding one
queued packet emits that packet with the learned destination MAC and
releases it, leaving the slot stable at age 0 with an empty queue. -/
theorem claim_C2_pending_resolution_witness :
    (update_arp_entry netif0 ip6 [2, 0, 0, 0, 0, 6] true tableP).1.getD 0 e0 =
      { tableP.getD 0 e0 with state := .stable, ethaddr := [2, 0, 0, 0, 0, 6],
                              ctime := 0, p := [] } ∧
    (update_arp_entry netif0 ip6 [2, 0, 0, 0, 0, 6] true tableP).2 =
      expectedFlush [2, 0, 0, 0, 0, 6] netif0.hwaddr (tableP.getD 0 e0).p :=
  claim_C2_pending_resolution netif0 ip6 [2, 0, 0, 0, 0, 6] true tableP 0
    (by decide) (by decide) (by decide) (by decide) (by decide) (by decide)
    (by decide) (by decide)

/-- C4: whenever the request pbuf allocates, the frame `etharp_query`
emits first is the ARP request with opcode 1, hwtype 1,
`hwlen = iface.hwaddr_len`, proto 0x0800, protolen 4, sender hardware
address `iface.hwaddr` (the uninitialized `srcaddr` of the source is
modelled from the spec as `iface.hwaddr`), sender IP `iface.ip`, target
hardware address all zero, target IP the queried address, Ethernet
destination ff:ff:ff:ff:ff:ff, Ethernet source `iface.hwaddr` and
ethertype 0x0806. -/
theorem claim_C4_request_frame (netif : Netif) (ip : Ip) (q : Option Buf) (env : QEnv)
    (table : List Entry)
    (ha : env.allocOk = true)
    (h6 : netif.hwaddr_len = 6) (hw : netif.hwaddr.length = 6)
    (hshw : env.init.shw.length ≤ 6) (hdhw : env.init.dhw.length ≤ 6)
    (hed : env.init.ethdest.length ≤ 6) (hes : env.init.ethsrc.length ≤ 6) :
    (etharp_query netif ip q env table).evs.head?
        = some (Ev.out (.arp (buildRequest netif ip env.init))) ∧
    (buildRequest netif ip env.init).opcode = 1 ∧
    (buildRequest netif ip env.init).hwtype = 1 ∧
    (buildRequest netif ip env.init).hwlen = netif.hwaddr_len ∧
    (buildRequest netif ip env.init).proto = 0x800 ∧
    (buildRequest netif ip env.init).protolen = 4 ∧
    (buildRequest netif ip env.init).shw = netif.hwaddr ∧
    (buildRequest netif ip env.init).sip = netif.ip ∧
    (buildRequest netif ip env.init).dhw = List.replicate 6 0 ∧
    (buildRequest netif ip env.init).dip = ip ∧
    (buildRequest netif ip env.init).ethdest = List.replicate 6 0xff ∧
    (buildRequest netif ip env.init).ethsrc = netif.hwaddr ∧
    (buildRequest netif ip env.init).ethtype = 0x806 := by
  refine ⟨?_, rfl, rfl, rfl, rfl, rfl, ?_, rfl, ?_, rfl, ?_, ?_, rfl⟩
  · simp only [etharp_query, ha, if_true]
    rfl
  · simp only [buildRequest, h6]
    exact writeBytes_all _ _ 6 hw hshw
  · simp only [buildRequest, h6]
    exact writeBytes_all _ _ 6 (List.length_replicate 6 0) hdhw
  · simp only [buildRequest, h6]
    exact writeBytes_all _ _ 6 (List.length_replicate 6 0xff) hed
  · simp only [buildRequest, h6]
    exact writeBytes_all _ _ 6 hw hes

/-- Witness for C4: the request emitted for 10.0.0.6 on the seed
interface. -/
theorem claim_C4_request_frame_witness :
    (etharp_query netif0 ip6 none env0 (etharp_init 4)).evs.head?
        = some (Ev.out (.arp (buildRequest netif0 ip6 env0.init))) ∧
    (buildRequest netif0 ip6 env0.init).shw = netif0.hwaddr ∧
    (buildRequest netif0 ip6 env0.init).ethdest = List.replicate 6 0xff := by
  have h := claim_C4_request_frame netif0 ip6 none env0 (etharp_init 4)
    (by decide) (by decide) (by decide) (by decide) (by decide) (by decide) (by decide)
  exact ⟨h.1, h.2.2.2.2.2.2.1, h.2.2.2.2.2.2.2.2.2.2.1⟩

/-- C9 (amended): an inbound ARP frame shorter than the ARP-over-Ethernet
header is dropped with the buffer released and nothing emitted; a frame
with an unknown opcode (neither request nor reply) has its buffer
released as the last action and no ARP frame is ever emitted for it (the
passive learn it still triggers can only flush queued IP packets).  The
hardware/protocol length fields are not validated, so wrong lengths do
not make a frame malformed for this handler — that case is the
counterexample. -/
theorem claim_C9_malformed_dropped (netif : Netif) (ethaddr : List Nat)
    (p : ArpPacket) (table : List Entry) :
    (p.tot_len < 42 →
      etharp_arp_input netif ethaddr p table = (table, [Ev.free (.arp p.hdr)])) ∧
    (¬ p.tot_len < 42 → p.hdr.opcode ≠ 1 → p.hdr.opcode ≠ 2 →
      ((etharp_arp_input netif ethaddr p table).2.any isArpOut = false ∧
       (etharp_arp_input netif ethaddr p table).2.getLast? =
         some (Ev.free (.arp p.hdr)))) := by
  constructor
  · intro h
    rw [etharp_arp_input, if_pos h]
  · intro h h1 _
    rw [etharp_arp_input, if_neg h]
    simp only [if_neg h1]
    constructor
    · rw [List.any_append, update_no_arpout]
      rfl
    · exact List.getLast?_concat _

/-- Witness for C9: a 10-octet frame is dropped unprocessed, and a
42-octet frame with opcode 7 is released with no ARP output. -/
theorem claim_C9_malformed_dropped_witness :
    (etharp_arp_input netif0 [2, 0, 0, 0, 0, 2] ⟨10, garbFrame⟩ (etharp_init 4) =
      (etharp_init 4, [Ev.free (.arp garbFrame)])) ∧
    ((etharp_arp_input netif0 [2, 0, 0, 0, 0, 2]
        ⟨42, { garbFrame with opcode := 7 }⟩ (etharp_init 4)).2.any isArpOut = false ∧
     (etharp_arp_input netif0 [2, 0, 0, 0, 0, 2]
        ⟨42, { garbFrame with opcode := 7 }⟩ (etharp_init 4)).2.getLast? =
       some (Ev.free (.arp ({ garbFrame with opcode := 7 } : ArpFrame)))) :=
  ⟨(claim_C9_malformed_dropped netif0 [2, 0, 0, 0, 0, 2] ⟨10, garbFrame⟩
      (etharp_init 4)).1 (by decide),
   (claim_C9_malformed_dropped netif0 [2, 0, 0, 0, 0, 2]
      ⟨42, { garbFrame with opcode := 7 }⟩ (etharp_init 4)).2
      (by decide) (by decide) (by decide)⟩

/-- C8 (amended): `update_arp_entry` called with 0.0.0.0 is a no-op
(cache unchanged, nothing emitted), and along every sequence of public
calls from the initialized cache in which `etharp_query` is never
invoked directly with target 0.0.0.0, no entry outside the empty state
carries the address 0.0.0.0.  (A direct query for 0.0.0.0 does insert
such an entry — that is the counterexample.) -/
theorem claim_C8_no_zero_ip (netif : Netif) (n : Nat) (ops : List AOp)
    (h : ∀ op ∈ ops, qOk op = true) :
    (∀ (mac : List Nat) (ins : Bool) (t : List Entry),
      update_arp_entry netif zeroIp mac ins t = (t, [])) ∧
    NoZeroIp (runOps netif n ops) := by
  constructor
  · intro mac ins t
    rw [update_arp_entry, if_pos rfl]
  · rw [runOps]
    refine noZero_fold netif ops (etharp_init n) h ?_
    intro e he hs
    rw [List.eq_of_mem_replicate he] at hs
    exact absurd rfl hs

/-- Witness for C8: a tick, a query for 10.0.0.6, an inbound ARP frame
and an outbound datagram leave no non-empty slot with address
0.0.0.0. -/
theorem claim_C8_no_zero_ip_witness :
    NoZeroIp (runOps netif0 4
      [AOp.tmr, AOp.query ip6 none env0, AOp.arpin [2, 0, 0, 0, 0, 2] badPkt,
       AOp.output ⟨10, 0, 0, 5⟩ buf0 env0]) :=
  (claim_C8_no_zero_ip netif0 4
    [AOp.tmr, AOp.query ip6 none env0, AOp.arpin [2, 0, 0, 0, 0, 2] badPkt,
     AOp.output ⟨10, 0, 0, 5⟩ buf0 env0] (by decide)).2

/-- C6 (amended): for every cache configuration, `find_arp_entry` returns
the index of the first empty slot, unchanged table and no events, if any
slot is empty; otherwise, whatever slot it returns is stable, of maximal
age among the stable slots, and the LAST such slot in scan order on ties
(every stable slot after it is strictly younger); that slot is reset to
empty with its queued buffers released.  If no slot is empty and none is
stable (every slot pending), it signals out-of-memory. -/
theorem claim_C6_find_slot (table : List Entry) :
    (∀ i, firstEmptyIdx table = some i → find_arp_entry table = some (i, table, [])) ∧
    (firstEmptyIdx table = none →
      (∀ i t evs, find_arp_entry table = some (i, t, evs) →
        i < table.length ∧
        (table.getD i e0).state = EState.stable ∧
        (∀ m, m < table.length → (table.getD m e0).state = EState.stable →
          (table.getD m e0).ctime ≤ (table.getD i e0).ctime) ∧
        (∀ m, i < m → m < table.length → (table.getD m e0).state = EState.stable →
          (table.getD m e0).ctime < (table.getD i e0).ctime) ∧
        t = table.set i { table.getD i e0 with state := .empty, p := [] } ∧
        evs = (table.getD i e0).p.map (fun b => Ev.free (.ip b))) ∧
      ((∀ e ∈ table, e.state ≠ EState.stable) → find_arp_entry table = none)) := by
  constructor
  · intro i h
    rw [find_arp_entry, firstEmpty_find_loop table 0 0 none i h]
    simp
  · intro hne
    have hno : ∀ e ∈ table, e.state ≠ EState.empty := by
      intro e he hs
      have hx := firstIdxWith_none _ table hne e he
      rw [hs] at hx
      simp at hx
    constructor
    · intro i t evs h
      rw [find_arp_entry, find_loop_no_empty table 0 0 none hno] at h
      cases hlms : lastMaxStable table with
      | none =>
        rw [hlms] at h
        cases h
      | some kc =>
        obtain ⟨k, c⟩ := kc
        rw [hlms] at h
        simp only [] at h
        rw [if_pos (Nat.zero_le c)] at h
        simp only [Nat.zero_add] at h
        injection h with h1
        simp only [Prod.mk.injEq] at h1
        obtain ⟨rfl, rfl, rfl⟩ := h1
        have hst := lms_stable table k c hlms
        refine ⟨hst.1, hst.2.1, ?_, ?_, ?_, ?_⟩
        · intro m hm hsm
          rw [hst.2.2]
          exact lms_ge table k c hlms m hm hsm
        · intro m hkm hm hsm
          rw [hst.2.2]
          exact lms_after table k c hlms m hkm hm hsm
        · rw [cleanupStable]
          rw [if_pos hst.2.1]
        · rw [cleanupStable]
          rw [if_pos hst.2.1]
    · intro hns
      rw [find_arp_entry, find_loop_no_empty table 0 0 none hno, lms_total table hns]

/-- Witness for C6: on a full table with stable slots of ages 3 and 7 at
indices 1 and 2 and pending slots elsewhere, the replacement victim is
slot 2, which is reset with its one queued buffer freed. -/
theorem claim_C6_find_slot_witness :
    2 < tableW.length ∧ (tableW.getD 2 e0).state = EState.stable ∧
    find_arp_entry tableW =
      some (2, tableW.set 2 { tableW.getD 2 e0 with state := .empty, p := [] },
            (tableW.getD 2 e0).p.map (fun b => Ev.free (.ip b))) := by
  have hfind : find_arp_entry tableW =
      some (2, tableW.set 2 { tableW.getD 2 e0 with state := .empty, p := [] },
            (tableW.getD 2 e0).p.map (fun b => Ev.free (.ip b))) := by decide
  have h2 := ((claim_C6_find_slot tableW).2 (by decide)).1 2 _ _ hfind
  exact ⟨h2.1, h2.2.1, hfind⟩

end Etharp
